import Mathlib

/-!
Shallow embedding of `src/handler.py` (Duplicate-File-Handler).

The program walks a directory tree, groups files by byte size, then by the
MD5 digest of their content, reports duplicate groups with 1-based ordinals,
and deletes files selected by those ordinals.

Modelling choices:
* The filesystem walk is a list of `WalkFile` records (directory, file name,
  byte size) given in the order `os.walk` yields them.
* File content and the MD5 digest are abstracted as function parameters
  `content : String → List Nat` (path → bytes) and
  `digest : List Nat → String`; the hashing step is additionally instrumented
  to return the list of file paths it opens and reads, in order.
* Python dicts preserve insertion order, so every dict is an association
  list; `defaultdict(list)` insertion is `bucketInsert` / `hashInsert`
  (append to the existing key's list, else add a new key at the end).
* The live filesystem during deletion is an association list
  `List (String × Nat)` from path to current byte size; `os.path.getsize`
  on a missing path raises, modelled by the `DelResult.err` outcome.
* Python list indexing `lst[num - 1]` for a non-negative `num` resolves
  index `-1` (that is, `num = 0`) to the *last* element when the list is
  non-empty; `pyGetIndex` reproduces exactly that.
-/

namespace DuplicateFileHandler

/-- A file met during the `os.walk` traversal: the directory it is in, its
bare file name (what `file.endswith(file_format)` tests), and its byte size
(what `os.path.getsize` returns for it). -/
structure WalkFile where
  dir : String
  name : String
  size : Nat
deriving DecidableEq, Repr

/-- `os.path.join(root, file)`. -/
def mkPath (e : WalkFile) : String := e.dir ++ "/" ++ e.name

/-- `self.files[file_size].append(file_path)` on a `defaultdict(list)`:
append to the bucket with this key if present, otherwise create the bucket
at the end (Python dicts keep insertion order). -/
def bucketInsert : List (Nat × List String) → Nat → String → List (Nat × List String)
  | [], s, p => [(s, [p])]
  | (k, v) :: rest, s, p =>
      if k = s then (k, v ++ [p]) :: rest else (k, v) :: bucketInsert rest s p

/-- Dictionary access `d[s]` for the size buckets (first matching key;
keys are unique by construction). -/
def bucketGet : List (Nat × List String) → Nat → List String
  | [], _ => []
  | (k, v) :: rest, s => if k = s then v else bucketGet rest s

/-- The loop body of `DuplicateFileHandler.add_files`, threading the
accumulated `self.files` dictionary through the walk. -/
def add_files_loop (file_format : String) : List WalkFile → List (Nat × List String) → List (Nat × List String)
  | [], files => files
  | e :: rest, files =>
      add_files_loop file_format rest
        (if e.name.endsWith file_format then bucketInsert files e.size (mkPath e) else files)

/-- `DuplicateFileHandler.add_files`: walk the tree, keep files whose name
ends with `file_format`, and group their paths by byte size. -/
def add_files (walk : List WalkFile) (file_format : String) : List (Nat × List String) :=
  add_files_loop file_format walk []

/-- `hash_dict[hash_value].append(file)` on a `defaultdict(list)`. -/
def hashInsert : List (String × List String) → String → String → List (String × List String)
  | [], h, p => [(h, [p])]
  | (k, v) :: rest, h, p =>
      if k = h then (k, v ++ [p]) :: rest else (k, v) :: hashInsert rest h p

/-- The inner loop of `add_files_by_hash_value` over one size bucket:
open and read each file, digest its content, and group the paths by digest
into `hash_dict`. Besides the dictionary, it returns the list of files it
read, in order (the instrumentation for the laziness property). -/
def hash_bucket_loop (content : String → List Nat) (digest : List Nat → String) :
    List String → List (String × List String) → List (String × List String) × List String
  | [], hash_dict => (hash_dict, [])
  | file :: rest, hash_dict =>
      let hash_value := digest (content file)
      let out := hash_bucket_loop content digest rest (hashInsert hash_dict hash_value file)
      (out.1, file :: out.2)

/-- `DuplicateFileHandler.add_files_by_hash_value`: for every size bucket
(note: every bucket, with no check on its length) read each file, digest it,
and store `size → digest → paths`. Returns the dictionary together with the
list of all files read, in order. -/
def add_files_by_hash_value (content : String → List Nat) (digest : List Nat → String) :
    List (Nat × List String) → List (Nat × List (String × List String)) × List String
  | [] => ([], [])
  | (size, files) :: rest =>
      let bucket := hash_bucket_loop content digest files []
      let out := add_files_by_hash_value content digest rest
      ((size, bucket.1) :: out.1, bucket.2 ++ out.2)

/-- `DuplicateFileHandler.add_duplicate_files`: keep, inside each size, only
the digest groups with more than one file, and keep a size at all only when
its filtered inner dictionary is non-empty. -/
def add_duplicate_files : List (Nat × List (String × List String)) → List (Nat × List (String × List String))
  | [] => []
  | (size, hash_dict) :: rest =>
      let duplicate_hash_dict := hash_dict.filter (fun g => 1 < g.2.length)
      if duplicate_hash_dict.isEmpty then add_duplicate_files rest
      else (size, duplicate_hash_dict) :: add_duplicate_files rest

/-- Python's `sorted(keys, reverse=reverse)` on a list of sizes. -/
def pySortedKeys (reverse : Bool) (l : List Nat) : List Nat :=
  if reverse then l.insertionSort (fun a b => b ≤ a) else l.insertionSort (fun a b => a ≤ b)

/-- Python's `sorted(d.items(), reverse=reverse)` on the items of a
size-keyed dictionary: tuple comparison starts with the size and, the sizes
being distinct keys of one dictionary, never looks at the second component. -/
def pySortedItems {α : Type} (reverse : Bool) (l : List (Nat × α)) : List (Nat × α) :=
  if reverse then l.insertionSort (fun a b => b.1 ≤ a.1) else l.insertionSort (fun a b => a.1 ≤ b.1)

/-- `DuplicateFileHandler.output_files`: the print trace, one
`(size, paths)` entry per printed size block, sizes in the order
`sorted(self.files, reverse=reverse)` visits them. -/
def output_files (files : List (Nat × List String)) (reverse : Bool) : List (Nat × List String) :=
  (pySortedKeys reverse (files.map Prod.fst)).map (fun size => (size, bucketGet files size))

/-- The innermost loop of `output_duplicates`: number the files of one
digest group, starting at `index`, returning the printed
`(ordinal, path)` pairs and the next value of `index`. -/
def emitFiles : List String → Nat → List (Nat × String) × Nat
  | [], index => ([], index)
  | file :: rest, index =>
      let out := emitFiles rest (index + 1)
      ((index, file) :: out.1, out.2)

/-- The digest-group loop of `output_duplicates` over one size. -/
def emitGroups : List (String × List String) → Nat → List (Nat × String) × Nat
  | [], index => ([], index)
  | (_, files) :: rest, index =>
      let out1 := emitFiles files index
      let out2 := emitGroups rest out1.2
      (out1.1 ++ out2.1, out2.2)

/-- The size loop of `output_duplicates` over the sorted items. -/
def emitSizes : List (Nat × List (String × List String)) → Nat → List (Nat × String) × Nat
  | [], index => ([], index)
  | (_, hash_dict) :: rest, index =>
      let out1 := emitGroups hash_dict index
      let out2 := emitSizes rest out1.2
      (out1.1 ++ out2.1, out2.2)

/-- `DuplicateFileHandler.output_duplicates`: sort the duplicate dictionary
items by size per the flag, print each file with an ordinal starting at 1,
and append every printed path to `self.duplicate_files` (which held
`prior` before the call). Returns the printed `(ordinal, path)` pairs in
emission order and the new `self.duplicate_files`. -/
def output_duplicates (duplicate_files_dict : List (Nat × List (String × List String)))
    (reverse : Bool) (prior : List String) : List (Nat × String) × List String :=
  let printed := (emitSizes (pySortedItems reverse duplicate_files_dict) 1).1
  (printed, prior ++ printed.map Prod.snd)

/-- The order of the size blocks `output_duplicates` prints, read off its
loop header `for size, hash_dict in sorted(self.duplicate_files_dict.items(),
reverse=reverse)`. -/
def dupSizeTrace (duplicate_files_dict : List (Nat × List (String × List String)))
    (reverse : Bool) : List Nat :=
  (pySortedItems reverse duplicate_files_dict).map Prod.fst

/-- Python `self.duplicate_files[num - 1]` for a non-negative `num` (the
interactive input only ever parses digits): `num = 0` means index `-1`,
the last element when the list is non-empty, an `IndexError` otherwise;
`num ≥ 1` is ordinary zero-based access at `num - 1`. -/
def pyGetIndex (l : List String) (num : Nat) : Option String :=
  if num = 0 then l.getLast? else l[num - 1]?

/-- `os.path.getsize(file)` against the live filesystem, `none` when the
path no longer exists (the call raises). -/
def getSize (fs : List (String × Nat)) (p : String) : Option Nat :=
  (fs.find? (fun e => e.1 = p)).map Prod.snd

/-- `os.remove(file)`: the path disappears from the filesystem. -/
def removeFile (fs : List (String × Nat)) (p : String) : List (String × Nat) :=
  fs.filter (fun e => ¬ e.1 = p)

/-- Outcome of `delete_files`: normal completion prints the total and leaves
a filesystem, an uncaught `OSError` from `os.path.getsize`/`os.remove`
aborts with no total printed, the filesystem keeping every deletion already
performed. -/
inductive DelResult where
  | ok (total : Nat) (fs : List (String × Nat))
  | err (fs : List (String × Nat))
deriving DecidableEq, Repr

/-- The loop of `DuplicateFileHandler.delete_files`, threading `total_size`
and the live filesystem. An unresolvable number (`IndexError`) is skipped;
a resolved file is sized then removed; sizing a vanished path aborts. -/
def delete_files_loop (duplicate_files : List String) :
    List Nat → List (String × Nat) → Nat → DelResult
  | [], fs, total_size => .ok total_size fs
  | num :: rest, fs, total_size =>
      match pyGetIndex duplicate_files num with
      | none => delete_files_loop duplicate_files rest fs total_size
      | some file =>
          match getSize fs file with
          | none => .err fs
          | some size => delete_files_loop duplicate_files rest (removeFile fs file) (total_size + size)

/-- `DuplicateFileHandler.delete_files(*file_numbers)` run against the live
filesystem `fs`, with `duplicate_files` the flattened numbered list. -/
def delete_files (duplicate_files : List String) (file_numbers : List Nat)
    (fs : List (String × Nat)) : DelResult :=
  delete_files_loop duplicate_files file_numbers fs 0

/-- Adding a file's size to the total a deletion run will print, leaving an
aborted run aborted. -/
def addTotal (size : Nat) : DelResult → DelResult
  | .ok total fs => .ok (size + total) fs
  | .err fs => .err fs

/-- The phases `start_file_handler` can execute, in source order. -/
inductive Phase where
  | addFilesP | hashP | dupP | outputFilesP | outputDupsP | deleteP
deriving DecidableEq, Repr

/-- The control flow of `DuplicateFileHandler.start_file_handler` after the
prompts are answered: the three build steps, the plain listing, then —
before and independently of the `if delete:` test — `output_duplicates`,
and finally the deletion phase exactly when the `Check for duplicates?`
answer was `yes`. -/
def start_file_handler_phases (delete : Bool) : List Phase :=
  [.addFilesP, .hashP, .dupP, .outputFilesP, .outputDupsP] ++ if delete then [.deleteP] else []

/-- What `main` does with `sys.argv`. -/
inductive MainResult where
  | usageError (msg : String)
  | run (dir : String)
deriving DecidableEq, Repr

/-- `main`: `sys.argv[1]` missing (`IndexError`) prints
`Directory is not specified` and nothing else runs; otherwise the handler is
built on the directory and started. -/
def main (argv : List String) : MainResult :=
  match argv[1]? with
  | none => .usageError "Directory is not specified"
  | some d => .run d

/-! ## Supporting lemmas -/

theorem endsWith_empty (s : String) : s.endsWith "" = true := by
  simp [String.endsWith, Substring.takeRight, String.toSubstring, Substring.prevn,
    Substring.bsize, Substring.beq, String.substrEq, String.substrEq.loop, BEq.beq]

theorem hash_bucket_loop_reads (content : String → List Nat) (digest : List Nat → String)
    (files : List String) (hash_dict : List (String × List String)) :
    (hash_bucket_loop content digest files hash_dict).2 = files := by
  induction files generalizing hash_dict with
  | nil => rfl
  | cons f rest ih => simp [hash_bucket_loop, ih]

theorem getSize_removeFile (fs : List (String × Nat)) (p : String) :
    getSize (removeFile fs p) p = none := by
  induction fs with
  | nil => rfl
  | cons e rest ih =>
      by_cases h : e.1 = p <;> simp [getSize, removeFile, List.find?, h] at ih ⊢

theorem emitFiles_spec (files : List String) (index : Nat) :
    (emitFiles files index).1.map Prod.snd = files ∧
    (emitFiles files index).1.map Prod.fst = List.range' index (emitFiles files index).1.length ∧
    (emitFiles files index).2 = index + (emitFiles files index).1.length := by
  induction files generalizing index with
  | nil => simp [emitFiles]
  | cons f rest ih =>
      obtain ⟨a, b, c⟩ := ih (index + 1)
      refine ⟨?_, ?_, ?_⟩
      · simp only [emitFiles, List.map_cons, a]
      · simp only [emitFiles, List.map_cons, List.length_cons, b, List.range'_succ]
      · simp only [emitFiles, List.length_cons, c]
        omega

theorem emitGroups_spec (groups : List (String × List String)) (index : Nat) :
    (emitGroups groups index).1.map Prod.snd = (groups.map Prod.snd).flatten ∧
    (emitGroups groups index).1.map Prod.fst = List.range' index (emitGroups groups index).1.length ∧
    (emitGroups groups index).2 = index + (emitGroups groups index).1.length := by
  induction groups generalizing index with
  | nil => simp [emitGroups]
  | cons g rest ih =>
      obtain ⟨hv, files⟩ := g
      obtain ⟨e1, e2, e3⟩ := emitFiles_spec files index
      obtain ⟨a1, a2, a3⟩ := ih (emitFiles files index).2
      refine ⟨?_, ?_, ?_⟩
      · simp only [emitGroups, List.map_append, List.map_cons, List.flatten_cons, e1, a1]
      · simp only [emitGroups, List.map_append, List.length_append, e2, a2]
        rw [e3, List.range'_append_1]
        congr 1
        omega
      · simp only [emitGroups, List.length_append, a3]
        rw [e3]
        omega

theorem emitSizes_spec (sizes : List (Nat × List (String × List String))) (index : Nat) :
    (emitSizes sizes index).1.map Prod.fst = List.range' index (emitSizes sizes index).1.length ∧
    (emitSizes sizes index).2 = index + (emitSizes sizes index).1.length := by
  induction sizes generalizing index with
  | nil => simp [emitSizes]
  | cons entry rest ih =>
      obtain ⟨sz, hd⟩ := entry
      obtain ⟨_, g2, g3⟩ := emitGroups_spec hd index
      obtain ⟨a1, a3⟩ := ih (emitGroups hd index).2
      refine ⟨?_, ?_⟩
      · simp only [emitSizes, List.map_append, List.length_append, g2, a1]
        rw [g3, List.range'_append_1]
        congr 1
        omega
      · simp only [emitSizes, List.length_append, a3]
        rw [g3]
        omega

/-! ## The claims -/

/-- Claim C1, counterexample: in the indexed file set `{10 ↦ ["a"]}` the size
bucket of `"a"` contains exactly one file, yet the hash-grouping step reads
and digests `"a"` — refuting the claim that files of singleton size buckets
are never read or hashed. -/
theorem singleton_bucket_hashed_cex :
    (bucketGet [(10, ["a"])] 10).length = 1 ∧
    "a" ∈ (add_files_by_hash_value (fun _ => ([] : List Nat)) (fun _ => "h") [(10, ["a"])]).2 := by
  decide

/-- Claim C1, amended: the hash-grouping step reads and digests every file of
every size bucket, singleton buckets included — the list of files it reads is
exactly the concatenation of all buckets, with no cardinality check. -/
theorem hash_step_reads_all_files (content : String → List Nat) (digest : List Nat → String)
    (files : List (Nat × List String)) :
    (add_files_by_hash_value content digest files).2 = (files.map Prod.snd).flatten := by
  induction files with
  | nil => rfl
  | cons b rest ih => cases b; simp [add_files_by_hash_value, hash_bucket_loop_reads, ih]

/-- Claim C2, at the failing input: with flattened list `["a", "b"]` and both
files on disk (10 and 7 bytes), the batch `[0]` is not a no-op — Python
resolves `0 - 1 = -1` to the last entry, so `"b"` is deleted and its 7 bytes
are counted. An ordinal greater than `N` (here 5) is a true no-op, and a
valid ordinal in the same batch as an out-of-range one still deletes
normally. -/
theorem delete_ordinal_zero_removes_last_file :
    delete_files ["a", "b"] [0] [("a", 10), ("b", 7)] = .ok 7 [("a", 10)] ∧
    delete_files ["a", "b"] [5] [("a", 10), ("b", 7)] = .ok 0 [("a", 10), ("b", 7)] ∧
    delete_files ["a", "b"] [5, 2] [("a", 10), ("b", 7)] = .ok 7 [("a", 10)] := by
  decide

/-- Claim C3: a run of the duplicate listing (the session starts with an
empty flattened list) prints ordinals that are exactly `1, 2, …, N` in
order — each used once, strictly increasing from 1 with no gaps — and the
flattened list holds the printed paths in emission order, so the entry at
position `ordinal - 1` is the path printed with that ordinal. -/
theorem output_duplicates_ordinals_contiguous
    (duplicate_files_dict : List (Nat × List (String × List String))) (reverse : Bool) :
    (output_duplicates duplicate_files_dict reverse []).1.map Prod.fst
      = List.range' 1 (output_duplicates duplicate_files_dict reverse []).1.length ∧
    (output_duplicates duplicate_files_dict reverse []).2
      = (output_duplicates duplicate_files_dict reverse []).1.map Prod.snd := by
  refine ⟨?_, by simp [output_duplicates]⟩
  simpa [output_duplicates] using
    (emitSizes_spec (pySortedItems reverse duplicate_files_dict) 1).1

theorem add_duplicate_files_mem (fbh : List (Nat × List (String × List String)))
    (p : Nat × List (String × List String)) (hp : p ∈ add_duplicate_files fbh) :
    p.2 ≠ [] ∧ ∀ g ∈ p.2, 2 ≤ g.2.length := by
  induction fbh with
  | nil => simp [add_duplicate_files] at hp
  | cons entry rest ih =>
      obtain ⟨sz, hd⟩ := entry
      rw [add_duplicate_files] at hp
      by_cases hemp : (hd.filter (fun g => 1 < g.2.length)).isEmpty
      · rw [if_pos hemp] at hp
        exact ih hp
      · rw [if_neg hemp] at hp
        rcases List.mem_cons.mp hp with hph | hpt
        · subst hph
          refine ⟨fun hnil => hemp ?_, ?_⟩
          · have hnil' : hd.filter (fun g => 1 < g.2.length) = [] := hnil
            rw [hnil']
            rfl
          · intro g hg
            have := (List.mem_filter.mp hg).2
            simp only [decide_eq_true_eq] at this
            omega
        · exact ih hpt

theorem add_duplicate_files_origin (fbh : List (Nat × List (String × List String)))
    (size : Nat) (d : List (String × List String))
    (hmem : (size, d) ∈ add_duplicate_files fbh) :
    ∃ hd, (size, hd) ∈ fbh ∧ ∃ g ∈ hd, 2 ≤ g.2.length := by
  induction fbh with
  | nil => simp [add_duplicate_files] at hmem
  | cons entry rest ih =>
      obtain ⟨sz, hd⟩ := entry
      rw [add_duplicate_files] at hmem
      by_cases hemp : (hd.filter (fun g => 1 < g.2.length)).isEmpty
      · rw [if_pos hemp] at hmem
        obtain ⟨hd', hin, hg⟩ := ih hmem
        exact ⟨hd', List.mem_cons_of_mem _ hin, hg⟩
      · rw [if_neg hemp] at hmem
        rcases List.mem_cons.mp hmem with hph | hpt
        · injection hph with h1 h2
          subst h1
          have hne : hd.filter (fun g => 1 < g.2.length) ≠ [] := by
            intro hnil
            rw [hnil] at hemp
            exact hemp rfl
          obtain ⟨g, hg⟩ := List.exists_mem_of_ne_nil _ hne
          refine ⟨hd, List.mem_cons_self _ _, g, (List.mem_filter.mp hg).1, ?_⟩
          have := (List.mem_filter.mp hg).2
          simp only [decide_eq_true_eq] at this
          omega
        · obtain ⟨hd', hin, hg⟩ := ih hpt
          exact ⟨hd', List.mem_cons_of_mem _ hin, hg⟩

/-- Claim C4: every entry of `add_duplicate_files`\' result keeps only digest
groups with at least two files and a non-empty inner dictionary; a size all
of whose digest groups have fewer than two members is absent from the
result altogether. -/
theorem add_duplicate_files_invariant (fbh : List (Nat × List (String × List String))) :
    (∀ p ∈ add_duplicate_files fbh, p.2 ≠ [] ∧ ∀ g ∈ p.2, 2 ≤ g.2.length) ∧
    (∀ size : Nat,
      (∀ hd, (size, hd) ∈ fbh → ∀ g ∈ hd, g.2.length ≤ 1) →
      ∀ d, (size, d) ∉ add_duplicate_files fbh) := by
  refine ⟨fun p hp => add_duplicate_files_mem fbh p hp, ?_⟩
  intro size hsmall d hmem
  obtain ⟨hd, hin, g, hg, hlen⟩ := add_duplicate_files_origin fbh size d hmem
  exact absurd (hsmall hd hin g hg) (by omega)

theorem mem_bucketGet_bucketInsert (bs : List (Nat × List String)) (s t : Nat)
    (q p : String) (h : p ∈ bucketGet (bucketInsert bs s q) t) :
    p ∈ bucketGet bs t ∨ (t = s ∧ p = q) := by
  induction bs with
  | nil =>
      by_cases hst : s = t <;> simp [bucketInsert, bucketGet, hst] at h
      exact Or.inr ⟨hst.symm, h⟩
  | cons e rest ih =>
      obtain ⟨k, v⟩ := e
      by_cases hks : k = s
      · rw [bucketInsert, if_pos hks] at h
        by_cases hkt : k = t
        · rw [bucketGet, if_pos hkt] at h
          rw [bucketGet, if_pos hkt]
          rcases List.mem_append.mp h with hv | hq
          · exact Or.inl hv
          · exact Or.inr ⟨hkt ▸ hks.symm ▸ rfl, List.mem_singleton.mp hq⟩
        · rw [bucketGet, if_neg hkt] at h
          rw [bucketGet, if_neg hkt]
          exact Or.inl h
      · rw [bucketInsert, if_neg hks] at h
        by_cases hkt : k = t
        · rw [bucketGet, if_pos hkt] at h
          rw [bucketGet, if_pos hkt]
          exact Or.inl h
        · rw [bucketGet, if_neg hkt] at h
          rw [bucketGet, if_neg hkt]
          exact ih h

theorem mem_bucketGet_bucketInsert_of_mem (bs : List (Nat × List String)) (s t : Nat)
    (q p : String) (h : p ∈ bucketGet bs t) :
    p ∈ bucketGet (bucketInsert bs s q) t := by
  induction bs with
  | nil => simp [bucketGet] at h
  | cons e rest ih =>
      obtain ⟨k, v⟩ := e
      by_cases hks : k = s
      · rw [bucketInsert, if_pos hks]
        by_cases hkt : k = t
        · rw [bucketGet, if_pos hkt] at h
          rw [bucketGet, if_pos hkt]
          exact List.mem_append_left _ h
        · rw [bucketGet, if_neg hkt] at h
          rw [bucketGet, if_neg hkt]
          exact h
      · rw [bucketInsert, if_neg hks]
        by_cases hkt : k = t
        · rw [bucketGet, if_pos hkt] at h
          rw [bucketGet, if_pos hkt]
          exact h
        · rw [bucketGet, if_neg hkt] at h
          rw [bucketGet, if_neg hkt]
          exact ih h

theorem self_mem_bucketGet_bucketInsert (bs : List (Nat × List String)) (s : Nat) (q : String) :
    q ∈ bucketGet (bucketInsert bs s q) s := by
  induction bs with
  | nil => simp [bucketInsert, bucketGet]
  | cons e rest ih =>
      obtain ⟨k, v⟩ := e
      by_cases hks : k = s
      · rw [bucketInsert, if_pos hks, bucketGet, if_pos hks]
        exact List.mem_append_right _ (List.mem_singleton.mpr rfl)
      · rw [bucketInsert, if_neg hks, bucketGet, if_neg hks]
        exact ih

theorem add_files_loop_mem (file_format : String) (walk : List WalkFile)
    (bs : List (Nat × List String)) (s : Nat) (p : String)
    (h : p ∈ bucketGet (add_files_loop file_format walk bs) s) :
    p ∈ bucketGet bs s ∨
      ∃ e ∈ walk, mkPath e = p ∧ e.size = s ∧ e.name.endsWith file_format = true := by
  induction walk generalizing bs with
  | nil => exact Or.inl h
  | cons e rest ih =>
      rw [add_files_loop] at h
      by_cases hf : e.name.endsWith file_format
      · rw [if_pos hf] at h
        rcases ih _ h with h1 | h1
        · rcases mem_bucketGet_bucketInsert _ _ _ _ _ h1 with h2 | ⟨hts, hpq⟩
          · exact Or.inl h2
          · exact Or.inr ⟨e, List.mem_cons_self _ _, hpq.symm, hts.symm, hf⟩
        · obtain ⟨e1, he1, hrest⟩ := h1
          exact Or.inr ⟨e1, List.mem_cons_of_mem _ he1, hrest⟩
      · rw [if_neg hf] at h
        rcases ih _ h with h1 | h1
        · exact Or.inl h1
        · obtain ⟨e1, he1, hrest⟩ := h1
          exact Or.inr ⟨e1, List.mem_cons_of_mem _ he1, hrest⟩

theorem add_files_loop_preserves (file_format : String) (walk : List WalkFile)
    (bs : List (Nat × List String)) (s : Nat) (p : String) (h : p ∈ bucketGet bs s) :
    p ∈ bucketGet (add_files_loop file_format walk bs) s := by
  induction walk generalizing bs with
  | nil => exact h
  | cons e rest ih =>
      rw [add_files_loop]
      by_cases hf : e.name.endsWith file_format
      · rw [if_pos hf]
        exact ih _ (mem_bucketGet_bucketInsert_of_mem _ _ _ _ _ h)
      · rw [if_neg hf]
        exact ih _ h

theorem add_files_loop_complete (file_format : String) (walk : List WalkFile)
    (bs : List (Nat × List String)) (e : WalkFile) (he : e ∈ walk)
    (hf : e.name.endsWith file_format = true) :
    mkPath e ∈ bucketGet (add_files_loop file_format walk bs) e.size := by
  induction walk generalizing bs with
  | nil => cases he
  | cons a rest ih =>
      rw [add_files_loop]
      rcases List.mem_cons.mp he with hea | her
      · subst hea
        rw [if_pos hf]
        exact add_files_loop_preserves _ _ _ _ _ (self_mem_bucketGet_bucketInsert bs e.size (mkPath e))
      · by_cases haf : a.name.endsWith file_format
        · rw [if_pos haf]
          exact ih _ her
        · rw [if_neg haf]
          exact ih _ her

/-- Claim C5: every path the indexing step places in the bucket keyed by
size `s` comes from a walked file of byte size exactly `s` whose name ends
with the filter string (plain suffix match, not an extension parse — a file
named `abcxyz` matches the filter `xyz`); with the empty filter every walked
file qualifies and lands in the bucket of its own size. -/
theorem add_files_size_and_suffix :
    (∀ (walk : List WalkFile) (file_format : String) (s : Nat) (p : String),
        p ∈ bucketGet (add_files walk file_format) s →
        ∃ e ∈ walk, mkPath e = p ∧ e.size = s ∧ e.name.endsWith file_format = true) ∧
    (∀ (walk : List WalkFile) (e : WalkFile), e ∈ walk →
        mkPath e ∈ bucketGet (add_files walk "") e.size) := by
  constructor
  · intro walk file_format s p h
    rcases add_files_loop_mem file_format walk [] s p h with h1 | h1
    · simp [bucketGet] at h1
    · exact h1
  · intro walk e he
    exact add_files_loop_complete "" walk [] e he (endsWith_empty e.name)

theorem addTotal_addTotal (a b : Nat) (r : DelResult) :
    addTotal a (addTotal b r) = addTotal (a + b) r := by
  cases r <;> simp [addTotal, Nat.add_assoc]

theorem delete_files_loop_total (duplicate_files : List String) (nums : List Nat)
    (fs : List (String × Nat)) (t : Nat) :
    delete_files_loop duplicate_files nums fs t
      = addTotal t (delete_files_loop duplicate_files nums fs 0) := by
  induction nums generalizing fs t with
  | nil => simp [delete_files_loop, addTotal]
  | cons num rest ih =>
      cases hidx : pyGetIndex duplicate_files num with
      | none =>
          simp only [delete_files_loop, hidx]
          exact ih fs t
      | some file =>
          simp only [delete_files_loop, hidx]
          cases hsz : getSize fs file with
          | none => simp [hsz, addTotal]
          | some size =>
              simp only [hsz]
              rw [ih (removeFile fs file) (t + size), ih (removeFile fs file) (0 + size),
                addTotal_addTotal]
              congr 1
              omega

/-- Claim C6: the reported result of a deletion batch is the accumulated
freed byte count — zero is reported for an empty batch (and hence whenever
no file is deleted), an unresolvable ordinal contributes nothing, and each
resolved ordinal contributes exactly the referenced file's byte size in the
filesystem state immediately before that file is removed. -/
theorem delete_files_freed_bytes_spec :
    (∀ (duplicate_files : List String) (fs : List (String × Nat)),
        delete_files duplicate_files [] fs = .ok 0 fs) ∧
    (∀ (duplicate_files : List String) (num : Nat) (rest : List Nat) (fs : List (String × Nat)),
        pyGetIndex duplicate_files num = none →
        delete_files duplicate_files (num :: rest) fs = delete_files duplicate_files rest fs) ∧
    (∀ (duplicate_files : List String) (num : Nat) (rest : List Nat) (fs : List (String × Nat))
        (file : String) (size : Nat),
        pyGetIndex duplicate_files num = some file → getSize fs file = some size →
        delete_files duplicate_files (num :: rest) fs
          = addTotal size (delete_files duplicate_files rest (removeFile fs file))) := by
  refine ⟨fun dup fs => rfl, ?_, ?_⟩
  · intro dup num rest fs h
    simp only [delete_files, delete_files_loop, h]
  · intro dup num rest fs file size h1 h2
    simp only [delete_files, delete_files_loop, h1, h2]
    rw [delete_files_loop_total dup rest (removeFile fs file) (0 + size)]
    congr 1
    omega

theorem output_files_sizes (files : List (Nat × List String)) (reverse : Bool) :
    (output_files files reverse).map Prod.fst = pySortedKeys reverse (files.map Prod.fst) := by
  simp [output_files, List.map_map, Function.comp_def]

theorem insertionSort_le_sorted (l : List Nat) :
    (l.insertionSort (fun a b => a ≤ b)).Sorted (fun a b => a ≤ b) := by
  haveI : IsTotal Nat (fun a b => a ≤ b) := ⟨fun a b => Nat.le_total a b⟩
  haveI : IsTrans Nat (fun a b => a ≤ b) := ⟨fun _ _ _ => Nat.le_trans⟩
  exact List.sorted_insertionSort _ l

theorem insertionSort_ge_sorted (l : List Nat) :
    (l.insertionSort (fun a b => b ≤ a)).Sorted (fun a b => b ≤ a) := by
  haveI : IsTotal Nat (fun a b => b ≤ a) := ⟨fun a b => Nat.le_total b a⟩
  haveI : IsTrans Nat (fun a b => b ≤ a) := ⟨fun _ _ _ h1 h2 => Nat.le_trans h2 h1⟩
  exact List.sorted_insertionSort _ l

theorem insertionSort_keyLE_sorted {α : Type} (l : List (Nat × α)) :
    ((l.insertionSort (fun a b => a.1 ≤ b.1)).map Prod.fst).Sorted (fun a b => a ≤ b) := by
  haveI : IsTotal (Nat × α) (fun a b => a.1 ≤ b.1) := ⟨fun a b => Nat.le_total a.1 b.1⟩
  haveI : IsTrans (Nat × α) (fun a b => a.1 ≤ b.1) := ⟨fun _ _ _ => Nat.le_trans⟩
  exact List.pairwise_map.mpr (List.sorted_insertionSort _ l)

theorem insertionSort_keyGE_sorted {α : Type} (l : List (Nat × α)) :
    ((l.insertionSort (fun a b => b.1 ≤ a.1)).map Prod.fst).Sorted (fun a b => b ≤ a) := by
  haveI : IsTotal (Nat × α) (fun a b => b.1 ≤ a.1) := ⟨fun a b => Nat.le_total b.1 a.1⟩
  haveI : IsTrans (Nat × α) (fun a b => b.1 ≤ a.1) := ⟨fun _ _ _ h1 h2 => Nat.le_trans h2 h1⟩
  exact List.pairwise_map.mpr (List.sorted_insertionSort _ l)

/-- Claim C7: both report modes visit sizes in sorted numeric order governed
by the flag — ascending for `reverse = false`, descending for
`reverse = true`. The plain listing visits every size bucket
(a permutation of all keys), and the duplicate listing sorts the
duplicate-set collection's sizes itself, in the same order, on each
invocation. -/
theorem report_modes_sorted_by_flag (files : List (Nat × List String))
    (dup : List (Nat × List (String × List String))) (reverse : Bool) :
    ((output_files files reverse).map Prod.fst).Perm (files.map Prod.fst) ∧
    (dupSizeTrace dup reverse).Perm (dup.map Prod.fst) ∧
    (if reverse
      then ((output_files files reverse).map Prod.fst).Sorted (fun a b => b ≤ a) ∧
           (dupSizeTrace dup reverse).Sorted (fun a b => b ≤ a)
      else ((output_files files reverse).map Prod.fst).Sorted (fun a b => a ≤ b) ∧
           (dupSizeTrace dup reverse).Sorted (fun a b => a ≤ b)) := by
  rw [output_files_sizes]
  cases reverse
  · have c1 : pySortedKeys false (files.map Prod.fst)
        = (files.map Prod.fst).insertionSort (fun a b => a ≤ b) := by
      simp [pySortedKeys]
    have c2 : dupSizeTrace dup false = (dup.insertionSort (fun a b => a.1 ≤ b.1)).map Prod.fst := by
      simp [dupSizeTrace, pySortedItems]
    rw [c1, c2, if_neg Bool.false_ne_true]
    exact ⟨List.perm_insertionSort _ _, (List.perm_insertionSort _ _).map _,
      insertionSort_le_sorted _, insertionSort_keyLE_sorted _⟩
  · have c1 : pySortedKeys true (files.map Prod.fst)
        = (files.map Prod.fst).insertionSort (fun a b => b ≤ a) := by
      simp [pySortedKeys]
    have c2 : dupSizeTrace dup true = (dup.insertionSort (fun a b => b.1 ≤ a.1)).map Prod.fst := by
      simp [dupSizeTrace, pySortedItems]
    rw [c1, c2, if_pos rfl]
    exact ⟨List.perm_insertionSort _ _, (List.perm_insertionSort _ _).map _,
      insertionSort_ge_sorted _, insertionSort_keyGE_sorted _⟩

/-- Claim C8: invoked without the root-directory argument (at most the script
name in `argv`), `main` reports the usage message and does not start the
handler — no scanning, hashing, reporting or deletion, and no uncaught
exception. -/
theorem main_missing_arg_usage_error (argv : List String) (h : argv.length ≤ 1) :
    main argv = .usageError "Directory is not specified" := by
  unfold main
  rw [List.getElem?_eq_none h]

/-- Claim C8, witness: the concrete invocation `["handler.py"]`. -/
theorem main_missing_arg_usage_error_witness :
    main ["handler.py"] = .usageError "Directory is not specified" :=
  main_missing_arg_usage_error ["handler.py"] (by decide)

/-- Claim C9: the duplicate listing phase is executed whatever the answer to
`Check for duplicates?`; that answer adds exactly the deletion phase. -/
theorem output_duplicates_unconditional :
    Phase.outputDupsP ∈ start_file_handler_phases true ∧
    Phase.outputDupsP ∈ start_file_handler_phases false ∧
    Phase.deleteP ∉ start_file_handler_phases false ∧
    start_file_handler_phases true = start_file_handler_phases false ++ [Phase.deleteP] := by
  decide

/-- Claim C10: a batch repeating one valid ordinal deletes the referenced
file at the first occurrence; the second occurrence re-resolves to the same
path, whose size lookup now fails, aborting the run (`err`, no total
printed) with the file still deleted in the final filesystem state. -/
theorem duplicate_ordinal_aborts (duplicate_files : List String) (fs : List (String × Nat))
    (num : Nat) (file : String) (size : Nat) (_h0 : 1 ≤ num)
    (h1 : pyGetIndex duplicate_files num = some file) (h2 : getSize fs file = some size) :
    delete_files duplicate_files [num, num] fs = .err (removeFile fs file) ∧
    getSize (removeFile fs file) file = none := by
  refine ⟨?_, getSize_removeFile fs file⟩
  simp [delete_files, delete_files_loop, h1, h2, getSize_removeFile]

/-- Claim C10, witness: flattened list `["a"]`, file `"a"` of 5 bytes on
disk, batch `[1, 1]`. -/
theorem duplicate_ordinal_aborts_witness :
    delete_files ["a"] [1, 1] [("a", 5)] = .err (removeFile [("a", 5)] "a") ∧
    getSize (removeFile [("a", 5)] "a") "a" = none :=
  duplicate_ordinal_aborts ["a"] [("a", 5)] 1 "a" 5 (by decide) (by decide) (by decide)

end DuplicateFileHandler

